import Mathlib

set_option maxHeartbeats 1000000
set_option linter.unusedVariables false

/-
Verification of the resumable bulk-fetch pipeline in download_all_comments.py.

The embedding models:
  - download_comments_for_post (the paginated fetcher with per-page retries),
    driven by an oracle assigning an API response to every (page, attempt);
  - the backoff durations computed by its exception/status handlers;
  - save_checkpoint as micro-operations on a two-file disk (tmp + record);
  - save_batch as an update of an association list from sequence numbers to
    batch contents, opened with mode w (unconditional replacement);
  - main's batch loop as a fold producing an event trace (fetch, checkpoint
    save, batch save) together with the final in-memory and on-disk state.
-/

namespace CommentsDownload

/-- Opaque comment record payload (order-preserving, never inspected). -/
abbrev Record := Nat

/- ───────────────── decimal rendering (str and %05d) ───────────────── -/

/-- Character for a single decimal digit, as Python prints it. -/
def digitChar (d : Nat) : Char := Char.ofNat (48 + d)

/-- Little-endian decimal digits of n; the first argument is fuel (any fuel
at least n computes the digits). -/
def revDigitsGo : Nat → Nat → List Nat
  | 0, _ => []
  | _ + 1, 0 => []
  | fuel + 1, n + 1 => (n + 1) % 10 :: revDigitsGo fuel ((n + 1) / 10)

/-- Big-endian decimal digit list of n, with 0 rendered as a single digit,
exactly the digits str(n) prints. -/
def natDigits0 (n : Nat) : List Nat :=
  if n = 0 then [0] else (revDigitsGo n n).reverse

/-- Model of Python str on a non-negative integer. -/
def natStr (n : Nat) : String := String.mk ((natDigits0 n).map digitChar)

/-- Model of the format specifier 05d: str(n) left-padded with zeros to a
minimum width of five characters. -/
def pad5 (n : Nat) : String :=
  String.mk (List.replicate (5 - (natStr n).length) '0' ++ (natStr n).data)

/-- Batch file name written by save_batch. -/
def batchFileName (n : Nat) : String := "batch_" ++ pad5 n ++ ".json"

/-- Python string comparison: lexicographic order on code points. -/
def lexLt : List Char → List Char → Bool
  | [], [] => false
  | [], _ :: _ => true
  | _ :: _, [] => false
  | a :: as, b :: bs =>
    if a.toNat < b.toNat then true
    else if b.toNat < a.toNat then false
    else lexLt as bs

/-- Python string less-than on the underlying character lists. -/
def strLt (s t : String) : Bool := lexLt s.data t.data

/- ───────────────── paginated fetcher ───────────────── -/

/-- Terminal status of a per-post fetch, as returned by
download_comments_for_post. -/
inductive Status where
  | ok
  | notFound
  | failedPage (n : Nat)
deriving DecidableEq, Repr

/-- The status string the code returns for each terminal status. -/
def statusString : Status → String
  | .ok => "ok"
  | .notFound => "404_not_found"
  | .failedPage n => "failed_page_" ++ natStr n

/-- Classification of one HTTP attempt, exactly the branches of the
try/except in download_comments_for_post. -/
inductive ApiResponse where
  | success (comments : List Record) (hasNext : Bool)
  | rateLimited
  | notFound
  | serverError
  | timeoutErr
  | connectionErr
  | otherExc
deriving DecidableEq, Repr

/-- The responses the attempt loop retries on after sleeping: everything
except a 200 success and a 404. -/
def retryable : ApiResponse → Bool
  | .success _ _ => false
  | .notFound => false
  | _ => true

/-- Result of the per-page retry loop. -/
inductive PageResult where
  | success (comments : List Record) (hasNext : Bool)
  | notFound
  | failed
deriving DecidableEq, Repr

/-- Whether a page result lets the outer page loop continue to a next page. -/
def continues : PageResult → Bool
  | .success _ true => true
  | _ => false

/-- The inner attempt loop for one page, attempts numbered from a with r
attempts remaining: a 200 succeeds, a 404 returns immediately, anything else
sleeps and retries; running out of attempts fails the page. -/
def tryPageFrom (env : Nat → Nat → ApiResponse) (page : Nat) : Nat → Nat → PageResult
  | _, 0 => .failed
  | a, r + 1 =>
    match env page a with
    | .success cs nx => .success cs nx
    | .notFound => .notFound
    | _ => tryPageFrom env page (a + 1) r

/-- The attempt loop for one page, attempts 1 through maxRetries. -/
def tryPage (env : Nat → Nat → ApiResponse) (page maxRetries : Nat) : PageResult :=
  tryPageFrom env page 1 maxRetries

/-- One line appended to errors.log by log_error for an exhausted post:
the post id together with the content of the failure message. -/
structure LogEntry where
  postId : String
  attempts : Nat
  page : Nat
deriving DecidableEq, Repr

/-- The page loop of download_comments_for_post: fuel bounds the number of
pages examined, page counts pages already completed, acc is all_comments.
Returns none only when fuel runs out before a terminal page. -/
def fetchGo (env : Nat → Nat → ApiResponse) (maxRetries : Nat) (pid : String) :
    Nat → Nat → List Record → Option (List Record × Status × List LogEntry)
  | 0, _, _ => none
  | fuel + 1, page, acc =>
    match tryPage env (page + 1) maxRetries with
    | .success cs true => fetchGo env maxRetries pid fuel (page + 1) (acc ++ cs)
    | .success cs false => some (acc ++ cs, .ok, [])
    | .notFound => some (acc, .notFound, [])
    | .failed => some (acc, .failedPage (page + 1), [⟨pid, maxRetries, page + 1⟩])

/-- download_comments_for_post: run the page loop from page 0 with an empty
accumulator. -/
def download_comments_for_post (env : Nat → Nat → ApiResponse) (maxRetries : Nat)
    (pid : String) (fuel : Nat) : Option (List Record × Status × List LogEntry) :=
  fetchGo env maxRetries pid fuel 0 []

/-- Concatenation of the comments of pages a through b-1. -/
def pagesConcat (pages : Nat → List Record) (a b : Nat) : List Record :=
  ((List.range (b - a)).map (fun i => pages (a + i))).flatten

/- ───────────────── backoff policy ───────────────── -/

/-- The four failure classes the retry handlers distinguish. -/
inductive FailureClass where
  | rateLimited
  | serverError
  | timeoutFail
  | connectionFail
deriving DecidableEq, Repr

/-- The wait computed before re-attempting a page, by failure class; jitter
stands for the value sampled by random.uniform in that handler. -/
def backoffWait (fc : FailureClass) (attempt : Nat) (base jitter : ℚ) : ℚ :=
  match fc with
  | .rateLimited => base * 2 ^ (attempt - 1) + jitter
  | .serverError => base * (attempt : ℚ) + jitter
  | .timeoutFail => base * (attempt : ℚ)
  | .connectionFail => base * 2 ^ (attempt - 1) + jitter

/- ───────────────── checkpoint store ───────────────── -/

/-- The durable checkpoint document (the timestamp field is metadata the
claims never touch and is omitted). -/
structure Checkpoint where
  completed_post_ids : List String
  total_comments_downloaded : Nat
deriving DecidableEq, Repr

/-- Contents of a file on disk: either a whole serialized checkpoint or a
torn partial write. -/
inductive FileContent where
  | whole (c : Checkpoint)
  | torn
deriving DecidableEq, Repr

/-- The two paths save_checkpoint touches: checkpoint.json (record) and
checkpoint.tmp (tmp). -/
structure CkptDisk where
  record : Option FileContent
  tmp : Option FileContent
deriving DecidableEq, Repr

/-- Micro-steps of save_checkpoint, at the granularity a crash can observe:
opening checkpoint.tmp for writing truncates it, json.dump completes its
contents, rename moves it over checkpoint.json. -/
inductive MicroOp where
  | openTruncTmp
  | writeTmpData (c : Checkpoint)
  | renameTmpOverRecord
deriving DecidableEq, Repr

/-- Effect of one micro-step on the disk. -/
def applyMicro (d : CkptDisk) : MicroOp → CkptDisk
  | .openTruncTmp => { d with tmp := some .torn }
  | .writeTmpData c => { d with tmp := some (.whole c) }
  | .renameTmpOverRecord =>
    match d.tmp with
    | some t => ⟨some t, none⟩
    | none => d

/-- save_checkpoint: write the whole state to the tmp path, then rename the
tmp path over the durable record. -/
def save_checkpoint_ops (c : Checkpoint) : List MicroOp :=
  [.openTruncTmp, .writeTmpData c, .renameTmpOverRecord]

/-- Run a sequence of micro-steps against a disk. -/
def applyOps (d : CkptDisk) (ops : List MicroOp) : CkptDisk :=
  ops.foldl applyMicro d

/- ───────────────── batch writer and coordinator ───────────────── -/

/-- One work item of the input document. -/
structure PostInfo where
  post_id : Nat
  comment_count : Nat
deriving DecidableEq, Repr

/-- One element of batch_results, as serialized into a batch file. -/
structure BatchEntry where
  post_id : Nat
  expected_comment_count : Nat
  actual_comment_count : Nat
  status : Status
  comments : List Record
deriving DecidableEq, Repr

/-- The observable actions of one run, in order: a fetch for a post id, a
checkpoint save, a batch file save. -/
inductive Event where
  | fetchEv (id : String)
  | saveCkptEv (ckpt : Checkpoint)
  | saveBatchEv (num : Nat) (entries : List BatchEntry)
deriving DecidableEq, Repr

/-- The batch directory: association of sequence number to file contents.
save_batch opens its file with mode w, so writing replaces any existing
contents under the same number. -/
def fsWrite (fs : List (Nat × List BatchEntry)) (n : Nat) (v : List BatchEntry) :
    List (Nat × List BatchEntry) :=
  fs.filter (fun e => e.1 != n) ++ [(n, v)]

/-- Contents of the batch file with sequence number n, if present. -/
def fsGet (fs : List (Nat × List BatchEntry)) (n : Nat) : Option (List BatchEntry) :=
  (fs.find? (fun e => e.1 == n)).map Prod.snd

/-- All entries across all batch files. -/
def entriesOfFs (fs : List (Nat × List BatchEntry)) : List BatchEntry :=
  (fs.map Prod.snd).flatten

/-- Python set add on the model of the completed set. -/
def addToSet (l : List String) (x : String) : List String :=
  if x ∈ l then l else l ++ [x]

/-- The run-level error tally condition in main: any status other than ok
and 404_not_found counts as an error. -/
def countsAsError (st : Status) : Bool :=
  statusString st != "ok" && statusString st != "404_not_found"

/-- The coordinator's mutable state: the completed set, the running comment
total, the error tally, the batch directory, and the trace of observable
actions so far. -/
structure RunState where
  completed : List String
  total : Nat
  errors : Nat
  fs : List (Nat × List BatchEntry)
  trace : List Event
deriving DecidableEq, Repr

/-- The batch entry main builds for one post from a fetch result. -/
def entryOf (fetchFn : String → List Record × Status) (p : PostInfo) : BatchEntry :=
  ⟨p.post_id, p.comment_count, (fetchFn (natStr p.post_id)).1.length,
   (fetchFn (natStr p.post_id)).2, (fetchFn (natStr p.post_id)).1⟩

/-- Body of the per-post loop in main: fetch, append the entry to the batch
buffer, add the id to the completed set, update the total, save the
checkpoint, bump the error tally. -/
def processPost (fetchFn : String → List Record × Status)
    (st : RunState × List BatchEntry) (p : PostInfo) : RunState × List BatchEntry :=
  let pid := natStr p.post_id
  let res := fetchFn pid
  let completed' := addToSet st.1.completed pid
  let total' := st.1.total + res.1.length
  ({ st.1 with
      completed := completed'
      total := total'
      errors := st.1.errors + (if countsAsError res.2 then 1 else 0)
      trace := st.1.trace ++
        [Event.fetchEv pid, Event.saveCkptEv ⟨completed', total'⟩] },
   st.2 ++ [entryOf fetchFn p])

/-- One iteration of the outer batch loop: process every post of the batch,
then save the accumulated batch_results under the current batch number. -/
def processBatch (fetchFn : String → List Record × Status)
    (rs : RunState) (batch : List PostInfo) (num : Nat) : RunState :=
  let r := batch.foldl (processPost fetchFn) (rs, [])
  { r.1 with
      fs := fsWrite r.1.fs num r.2
      trace := r.1.trace ++ [Event.saveBatchEv num r.2] }

/-- The outer batch loop: one processBatch per chunk, batch number
incremented after each. -/
def runBatches (fetchFn : String → List Record × Status) :
    List (List PostInfo) → Nat → RunState → RunState
  | [], _, rs => rs
  | b :: rest, num, rs => runBatches fetchFn rest (num + 1) (processBatch fetchFn rs b num)

/-- Chunking performed by range(0, len(remaining), batch_size): successive
slices of size bs; the first argument is fuel (the list length suffices
whenever bs is at least 1). -/
def chunksGo (bs : Nat) : Nat → List PostInfo → List (List PostInfo)
  | 0, _ => []
  | _ + 1, [] => []
  | fuel + 1, x :: xs => (x :: xs).take bs :: chunksGo bs fuel ((x :: xs).drop bs)

/-- The batches main iterates over. -/
def chunks (bs : Nat) (l : List PostInfo) : List (List PostInfo) :=
  chunksGo bs l.length l

/-- main, from loading the checkpoint to the end of the batch loop: build
the completed set, filter the remaining posts once, compute the starting
batch number from the completed count, then run the batch loop. -/
def runMain (fetchFn : String → List Record × Status) (allPosts : List PostInfo)
    (ckpt : Checkpoint) (batchSize : Nat) (fs0 : List (Nat × List BatchEntry)) :
    RunState :=
  let completed := ckpt.completed_post_ids.dedup
  let remaining := allPosts.filter (fun p => !decide (natStr p.post_id ∈ completed))
  let batchNum0 := completed.length / batchSize + 1
  runBatches fetchFn (chunks batchSize remaining) batchNum0
    ⟨completed, ckpt.total_comments_downloaded, 0, fs0, []⟩

/- ───────────────── trace projections ───────────────── -/

/-- Post ids fetched during a run, in order. -/
def fetchedIds (tr : List Event) : List String :=
  tr.filterMap (fun e => match e with | .fetchEv id => some id | _ => none)

/-- Batch sequence numbers saved during a run, in order. -/
def savedBatchNums (tr : List Event) : List Nat :=
  tr.filterMap (fun e => match e with | .saveBatchEv n _ => some n | _ => none)

/-- All entries written to batch files during a run, in order. -/
def savedBatchEntries (tr : List Event) : List BatchEntry :=
  (tr.filterMap (fun e => match e with | .saveBatchEv _ es => some es | _ => none)).flatten

/-- Number of checkpoint saves in a trace. -/
def ckptSaves (tr : List Event) : Nat :=
  (tr.filter (fun e => match e with | .saveCkptEv _ => true | _ => false)).length

/-- A trace in which every fetch is immediately followed by exactly one
checkpoint save, with batch saves in between items. -/
def goodTrace : List Event → Bool
  | [] => true
  | .fetchEv _ :: .saveCkptEv _ :: rest => goodTrace rest
  | .saveBatchEv _ _ :: rest => goodTrace rest
  | _ => false

/- ───────────────── fetcher lemmas ───────────────── -/

lemma fetchGo_succ (env : Nat → Nat → ApiResponse) (mr : Nat) (pid : String)
    (fuel page : Nat) (acc : List Record) :
    fetchGo env mr pid (fuel + 1) page acc =
      match tryPage env (page + 1) mr with
      | .success cs true => fetchGo env mr pid fuel (page + 1) (acc ++ cs)
      | .success cs false => some (acc ++ cs, .ok, [])
      | .notFound => some (acc, .notFound, [])
      | .failed => some (acc, .failedPage (page + 1), [⟨pid, mr, page + 1⟩]) := rfl

lemma tryPageFrom_failed (env : Nat → Nat → ApiResponse) (page : Nat) :
    ∀ r a, (∀ i, a ≤ i → i < a + r → retryable (env page i) = true) →
      tryPageFrom env page a r = .failed := by
  intro r
  induction r with
  | zero => intro a _; rfl
  | succ r ih =>
    intro a h
    have ha := h a le_rfl (by omega)
    show (match env page a with
      | .success cs nx => PageResult.success cs nx
      | .notFound => PageResult.notFound
      | _ => tryPageFrom env page (a + 1) r) = .failed
    cases henv : env page a with
    | success cs nx => rw [henv] at ha; simp [retryable] at ha
    | notFound => rw [henv] at ha; simp [retryable] at ha
    | rateLimited => exact ih (a + 1) (fun i h1 h2 => h i (by omega) (by omega))
    | serverError => exact ih (a + 1) (fun i h1 h2 => h i (by omega) (by omega))
    | timeoutErr => exact ih (a + 1) (fun i h1 h2 => h i (by omega) (by omega))
    | connectionErr => exact ih (a + 1) (fun i h1 h2 => h i (by omega) (by omega))
    | otherExc => exact ih (a + 1) (fun i h1 h2 => h i (by omega) (by omega))

lemma tryPageFrom_notFound (env : Nat → Nat → ApiResponse) (page : Nat) :
    ∀ r a b, a ≤ b → b < a + r → env page b = .notFound →
      (∀ i, a ≤ i → i < b → retryable (env page i) = true) →
      tryPageFrom env page a r = .notFound := by
  intro r
  induction r with
  | zero => intro a b h1 h2 _ _; omega
  | succ r ih =>
    intro a b h1 h2 hb h
    show (match env page a with
      | .success cs nx => PageResult.success cs nx
      | .notFound => PageResult.notFound
      | _ => tryPageFrom env page (a + 1) r) = .notFound
    by_cases hab : a = b
    · rw [hab, hb]
    · cases henv : env page a with
      | success cs nx =>
        have ha := h a le_rfl (by omega)
        rw [henv] at ha
        simp [retryable] at ha
      | notFound => rfl
      | rateLimited =>
        exact ih (a + 1) b (by omega) (by omega) hb (fun i hi1 hi2 => h i (by omega) hi2)
      | serverError =>
        exact ih (a + 1) b (by omega) (by omega) hb (fun i hi1 hi2 => h i (by omega) hi2)
      | timeoutErr =>
        exact ih (a + 1) b (by omega) (by omega) hb (fun i hi1 hi2 => h i (by omega) hi2)
      | connectionErr =>
        exact ih (a + 1) b (by omega) (by omega) hb (fun i hi1 hi2 => h i (by omega) hi2)
      | otherExc =>
        exact ih (a + 1) b (by omega) (by omega) hb (fun i hi1 hi2 => h i (by omega) hi2)

lemma fetchGo_acc_extends (env : Nat → Nat → ApiResponse) (mr : Nat) (pid : String) :
    ∀ fuel page acc recs st lg,
      fetchGo env mr pid fuel page acc = some (recs, st, lg) →
      ∃ t, recs = acc ++ t := by
  intro fuel
  induction fuel with
  | zero => intro page acc recs st lg h; simp [fetchGo] at h
  | succ fuel ih =>
    intro page acc recs st lg h
    rw [fetchGo_succ] at h
    cases htp : tryPage env (page + 1) mr with
    | success cs nx =>
      cases nx with
      | true =>
        rw [htp] at h
        obtain ⟨t, ht⟩ := ih (page + 1) (acc ++ cs) recs st lg h
        exact ⟨cs ++ t, by rw [ht, List.append_assoc]⟩
      | false =>
        rw [htp] at h
        simp only [Option.some.injEq, Prod.mk.injEq] at h
        exact ⟨cs, h.1.symm⟩
    | notFound =>
      rw [htp] at h
      simp only [Option.some.injEq, Prod.mk.injEq] at h
      exact ⟨[], by rw [← h.1, List.append_nil]⟩
    | failed =>
      rw [htp] at h
      simp only [Option.some.injEq, Prod.mk.injEq] at h
      exact ⟨[], by rw [← h.1, List.append_nil]⟩

lemma fetchGo_terminates (env : Nat → Nat → ApiResponse) (mr : Nat) (pid : String) :
    ∀ fuel page acc,
      (∃ k, k < fuel ∧ continues (tryPage env (page + k + 1) mr) = false) →
      ∃ recs st lg, fetchGo env mr pid fuel page acc = some (recs, st, lg) ∧
        (st = .ok ∨ st = .notFound ∨ ∃ N, 1 ≤ N ∧ st = .failedPage N) := by
  intro fuel
  induction fuel with
  | zero => rintro page acc ⟨k, hk, _⟩; omega
  | succ fuel ih =>
    rintro page acc ⟨k, hk, hterm⟩
    cases htp : tryPage env (page + 1) mr with
    | success cs nx =>
      cases nx with
      | true =>
        have hk0 : k ≠ 0 := by
          rintro rfl
          rw [Nat.add_zero, htp] at hterm
          simp [continues] at hterm
        obtain ⟨k', rfl⟩ : ∃ k', k = k' + 1 := ⟨k - 1, by omega⟩
        have hterm' : continues (tryPage env (page + 1 + k' + 1) mr) = false := by
          have he : page + 1 + k' + 1 = page + (k' + 1) + 1 := by omega
          rw [he]; exact hterm
        obtain ⟨recs, st, lg, heq, hst⟩ :=
          ih (page + 1) (acc ++ cs) ⟨k', by omega, hterm'⟩
        refine ⟨recs, st, lg, ?_, hst⟩
        rw [fetchGo_succ, htp]
        exact heq
      | false =>
        refine ⟨acc ++ cs, .ok, [], ?_, Or.inl rfl⟩
        rw [fetchGo_succ, htp]
    | notFound =>
      refine ⟨acc, .notFound, [], ?_, Or.inr (Or.inl rfl)⟩
      rw [fetchGo_succ, htp]
    | failed =>
      refine ⟨acc, .failedPage (page + 1), [⟨pid, mr, page + 1⟩], ?_,
        Or.inr (Or.inr ⟨page + 1, by omega, rfl⟩)⟩
      rw [fetchGo_succ, htp]

/-- The outcome download_comments_for_post builds at the terminal page N from
the records accumulated before it. -/
def terminalStep (t : PageResult) (pre : List Record) (N mr : Nat) (pid : String) :
    List Record × Status × List LogEntry :=
  match t with
  | .success cs _ => (pre ++ cs, .ok, [])
  | .notFound => (pre, .notFound, [])
  | .failed => (pre, .failedPage N, [⟨pid, mr, N⟩])

lemma pagesConcat_self (pages : Nat → List Record) (a : Nat) :
    pagesConcat pages a a = [] := by
  simp [pagesConcat]

lemma pagesConcat_cons (pages : Nat → List Record) {a b : Nat} (h : a < b) :
    pagesConcat pages a b = pages a ++ pagesConcat pages (a + 1) b := by
  have hb : b - a = (b - (a + 1)) + 1 := by omega
  simp only [pagesConcat, hb, List.range_succ_eq_map, List.map_cons, List.map_map,
    List.flatten_cons, Nat.add_zero]
  congr 1
  congr 1
  apply List.map_congr_left
  intro x _
  exact congrArg pages (by omega)

lemma fetchGo_runTo (env : Nat → Nat → ApiResponse) (mr N : Nat) (pid : String)
    (pages : Nat → List Record)
    (h1 : ∀ p, p < N → 1 ≤ p → tryPage env p mr = .success (pages p) true)
    (hterm : continues (tryPage env N mr) = false) :
    ∀ fuel page acc, page < N → N ≤ page + fuel →
      fetchGo env mr pid fuel page acc =
        some (terminalStep (tryPage env N mr)
          (acc ++ pagesConcat pages (page + 1) N) N mr pid) := by
  intro fuel
  induction fuel with
  | zero => intro page acc h2 h3; omega
  | succ fuel ih =>
    intro page acc h2 h3
    by_cases hpn : page + 1 = N
    · subst hpn
      rw [pagesConcat_self, List.append_nil, fetchGo_succ]
      cases htp : tryPage env (page + 1) mr with
      | success cs nx =>
        cases nx with
        | true => rw [htp] at hterm; simp [continues] at hterm
        | false => rfl
      | notFound => rfl
      | failed => rfl
    · have hlt : page + 1 < N := by omega
      have htp := h1 (page + 1) hlt (by omega)
      simp only [fetchGo_succ, htp]
      have := ih (page + 1) (acc ++ pages (page + 1)) hlt (by omega)
      rw [this, pagesConcat_cons pages hlt, ← List.append_assoc]

/-- C3: for every post the paginated fetch, once it reaches a page that does
not continue to a further page, terminates in exactly one of the three
terminal statuses — ok, 404_not_found, or failed_page_N for a 1-indexed page
N — and in every case the returned record list extends the accumulated
records (partial data is never discarded). -/
theorem fetch_terminates_three_statuses (env : Nat → Nat → ApiResponse)
    (mr fuel : Nat) (pid : String)
    (h : ∃ k, k < fuel ∧ continues (tryPage env (k + 1) mr) = false) :
    (∃ recs st lg, download_comments_for_post env mr pid fuel = some (recs, st, lg) ∧
       (st = .ok ∨ st = .notFound ∨ ∃ N, 1 ≤ N ∧ st = .failedPage N)) ∧
    (∀ fuel' page acc recs st lg,
       fetchGo env mr pid fuel' page acc = some (recs, st, lg) →
       ∃ t, recs = acc ++ t) := by
  constructor
  · obtain ⟨k, hk, ht⟩ := h
    exact fetchGo_terminates env mr pid fuel 0 []
      ⟨k, hk, by rw [Nat.zero_add]; exact ht⟩
  · exact fetchGo_acc_extends env mr pid

/-- C4: when every one of the maxRetries attempts on page N fails (neither a
success nor a 404), after N-1 successfully fetched pages the download for the
post returns the records accumulated from pages 1 through N-1, the status
failed_page_N with N the 1-indexed failing page, and exactly one errors.log
entry reporting the failure for this post. -/
theorem retries_exhausted_failed_page (env : Nat → Nat → ApiResponse)
    (mr fuel N : Nat) (pid : String) (pages : Nat → List Record)
    (h1 : ∀ p, p < N → 1 ≤ p → tryPage env p mr = .success (pages p) true)
    (h2 : ∀ a, a ≤ mr → 1 ≤ a → retryable (env N a) = true)
    (hN : 1 ≤ N) (hfuel : N ≤ fuel) :
    download_comments_for_post env mr pid fuel =
      some (pagesConcat pages 1 N, .failedPage N, [⟨pid, mr, N⟩]) := by
  have htp : tryPage env N mr = .failed :=
    tryPageFrom_failed env N mr 1 (fun i hi1 hi2 => h2 i (by omega) (by omega))
  have hrun := fetchGo_runTo env mr N pid pages h1 (by rw [htp]; rfl) fuel 0 []
    (by omega) (by omega)
  rw [download_comments_for_post, hrun, htp]
  simp [terminalStep]

/-- C9: a 404 observed on page N (after zero or more retryable attempts on
that page, within the retry budget) terminates the fetch immediately with the
single outcome status 404_not_found carrying the records accumulated from the
earlier pages, writes nothing to errors.log, and that status is not counted
toward the run-level error tally. -/
theorem not_found_outcome (env : Nat → Nat → ApiResponse)
    (mr fuel N a : Nat) (pid : String) (pages : Nat → List Record)
    (h1 : ∀ p, p < N → 1 ≤ p → tryPage env p mr = .success (pages p) true)
    (h2 : ∀ i, i < a → 1 ≤ i → retryable (env N i) = true)
    (hb : env N a = .notFound) (ha1 : 1 ≤ a) (ha2 : a ≤ mr)
    (hN : 1 ≤ N) (hfuel : N ≤ fuel) :
    download_comments_for_post env mr pid fuel =
      some (pagesConcat pages 1 N, .notFound, []) ∧
    countsAsError .notFound = false := by
  have htp : tryPage env N mr = .notFound :=
    tryPageFrom_notFound env N mr 1 a (by omega) (by omega) hb
      (fun i hi1 hi2 => h2 i hi2 (by omega))
  refine ⟨?_, by decide⟩
  have hrun := fetchGo_runTo env mr N pid pages h1 (by rw [htp]; rfl) fuel 0 []
    (by omega) (by omega)
  rw [download_comments_for_post, hrun, htp]
  simp [terminalStep]

/-- C5: the backoff durations match the spec formulas — base times 2 to the
attempt minus 1 plus jitter for rate-limited and connection errors, base
times attempt plus jitter for transient server errors, exactly base times
attempt with no jitter for timeouts — and are non-negative for positive base,
attempt at least 1 and non-negative jitter. -/
theorem backoff_policy_spec (attempt : Nat) (base j : ℚ)
    (hb : 0 < base) (ha : 1 ≤ attempt) (hj : 0 ≤ j) :
    backoffWait .rateLimited attempt base j = base * 2 ^ (attempt - 1) + j ∧
    backoffWait .connectionFail attempt base j = base * 2 ^ (attempt - 1) + j ∧
    backoffWait .serverError attempt base j = base * (attempt : ℚ) + j ∧
    backoffWait .timeoutFail attempt base j = base * (attempt : ℚ) ∧
    ∀ fc : FailureClass, 0 ≤ backoffWait fc attempt base j := by
  refine ⟨rfl, rfl, rfl, rfl, ?_⟩
  intro fc
  have hb' : (0 : ℚ) ≤ base := hb.le
  have hpow : (0 : ℚ) ≤ 2 ^ (attempt - 1) := by positivity
  have hat : (0 : ℚ) ≤ (attempt : ℚ) := Nat.cast_nonneg attempt
  cases fc with
  | rateLimited => exact add_nonneg (mul_nonneg hb' hpow) hj
  | serverError => exact add_nonneg (mul_nonneg hb' hat) hj
  | timeoutFail => exact mul_nonneg hb' hat
  | connectionFail => exact add_nonneg (mul_nonneg hb' hpow) hj

/-- Attempt oracle for the C3 witness: page 1 succeeds with a next page,
page 2 succeeds with no next page. -/
def envC3 : Nat → Nat → ApiResponse :=
  fun p _ => if p = 1 then .success [5] true else .success [7] false

theorem fetch_terminates_three_statuses_witness :
    ∃ recs st lg, download_comments_for_post envC3 3 "1" 2 = some (recs, st, lg) ∧
      (st = Status.ok ∨ st = Status.notFound ∨
        ∃ N, 1 ≤ N ∧ st = Status.failedPage N) :=
  (fetch_terminates_three_statuses envC3 3 2 "1" ⟨1, by decide, by decide⟩).1

/-- Attempt oracle for the C4 witness: page 1 succeeds with a next page,
page 2 times out on attempt 1 and gets a server error on attempt 2. -/
def envC4 : Nat → Nat → ApiResponse :=
  fun p a => if p = 1 then .success [4, 5] true
             else if a = 1 then .timeoutErr else .serverError

def pagesC4 : Nat → List Record := fun p => if p = 1 then [4, 5] else []

theorem retries_exhausted_failed_page_witness :
    download_comments_for_post envC4 2 "9" 3 =
      some ([4, 5], Status.failedPage 2, [⟨"9", 2, 2⟩]) := by
  have h := retries_exhausted_failed_page envC4 2 3 2 "9" pagesC4
    (by decide) (by decide) (by decide) (by decide)
  rw [h]; decide

/-- Attempt oracle for the C9 witness: page 1 succeeds with a next page,
page 2 is rate limited on attempt 1 and returns 404 on attempt 2. -/
def envC9 : Nat → Nat → ApiResponse :=
  fun p a => if p = 1 then .success [3] true
             else if a = 1 then .rateLimited else .notFound

def pagesC9 : Nat → List Record := fun p => if p = 1 then [3] else []

theorem not_found_outcome_witness :
    download_comments_for_post envC9 5 "2" 4 = some ([3], Status.notFound, []) ∧
    countsAsError Status.notFound = false := by
  have h := not_found_outcome envC9 5 4 2 2 "2" pagesC9 (by decide) (by decide)
    (by decide) (by decide) (by decide) (by decide) (by decide)
  exact ⟨h.1.trans (by decide), h.2⟩

theorem backoff_policy_spec_witness :
    backoffWait .rateLimited 3 10 2 = 10 * 2 ^ (3 - 1) + 2 ∧
    backoffWait .connectionFail 3 10 2 = 10 * 2 ^ (3 - 1) + 2 ∧
    backoffWait .serverError 3 10 2 = 10 * ((3 : Nat) : ℚ) + 2 ∧
    backoffWait .timeoutFail 3 10 2 = 10 * ((3 : Nat) : ℚ) ∧
    ∀ fc : FailureClass, 0 ≤ backoffWait fc 3 10 2 :=
  backoff_policy_spec 3 10 2 (by norm_num) (by norm_num) (by norm_num)

/- ───────────────── batch directory lemmas ───────────────── -/

lemma fsGet_nil (k : Nat) : fsGet [] k = none := rfl

lemma fsGet_cons (m : Nat) (w : List BatchEntry) (fs : List (Nat × List BatchEntry))
    (k : Nat) :
    fsGet ((m, w) :: fs) k = if m = k then some w else fsGet fs k := by
  by_cases h : m = k
  · simp [fsGet, List.find?_cons_of_pos, h]
  · simp [fsGet, List.find?_cons_of_neg, h]

lemma fsGet_append_of_none (fs1 fs2 : List (Nat × List BatchEntry)) (k : Nat)
    (h : fsGet fs1 k = none) : fsGet (fs1 ++ fs2) k = fsGet fs2 k := by
  induction fs1 with
  | nil => rfl
  | cons e fs1 ih =>
    obtain ⟨m, w⟩ := e
    rw [fsGet_cons] at h
    rw [List.cons_append, fsGet_cons]
    by_cases hm : m = k
    · simp [hm] at h
    · rw [if_neg hm] at h ⊢
      exact ih h

lemma fsGet_append_of_some (fs1 fs2 : List (Nat × List BatchEntry)) (k : Nat)
    (v : List BatchEntry) (h : fsGet fs1 k = some v) :
    fsGet (fs1 ++ fs2) k = some v := by
  induction fs1 with
  | nil => simp [fsGet_nil] at h
  | cons e fs1 ih =>
    obtain ⟨m, w⟩ := e
    rw [fsGet_cons] at h
    rw [List.cons_append, fsGet_cons]
    by_cases hm : m = k
    · rw [if_pos hm] at h ⊢
      exact h
    · rw [if_neg hm] at h ⊢
      exact ih h

lemma fsGet_filter_ne (fs : List (Nat × List BatchEntry)) (n k : Nat) (h : k ≠ n) :
    fsGet (fs.filter (fun e => e.1 != n)) k = fsGet fs k := by
  induction fs with
  | nil => rfl
  | cons e fs ih =>
    obtain ⟨m, w⟩ := e
    by_cases hm : m = n
    · subst hm
      have hf : ((m, w) :: fs).filter (fun e => e.1 != m) =
          fs.filter (fun e => e.1 != m) := by
        simp [List.filter_cons]
      rw [hf, ih, fsGet_cons, if_neg (fun hh => h hh.symm)]
    · have hf : ((m, w) :: fs).filter (fun e => e.1 != n) =
          (m, w) :: fs.filter (fun e => e.1 != n) := by
        simp [List.filter_cons, hm]
      rw [hf, fsGet_cons, fsGet_cons, ih]

lemma fsGet_filter_self (fs : List (Nat × List BatchEntry)) (n : Nat) :
    fsGet (fs.filter (fun e => e.1 != n)) n = none := by
  induction fs with
  | nil => rfl
  | cons e fs ih =>
    obtain ⟨m, w⟩ := e
    by_cases hm : m = n
    · subst hm
      have hf : ((m, w) :: fs).filter (fun e => e.1 != m) =
          fs.filter (fun e => e.1 != m) := by
        simp [List.filter_cons]
      rw [hf]
      exact ih
    · have hf : ((m, w) :: fs).filter (fun e => e.1 != n) =
          (m, w) :: fs.filter (fun e => e.1 != n) := by
        simp [List.filter_cons, hm]
      rw [hf, fsGet_cons, if_neg hm]
      exact ih

lemma fsGet_write_eq (fs : List (Nat × List BatchEntry)) (n : Nat)
    (v : List BatchEntry) : fsGet (fsWrite fs n v) n = some v := by
  rw [fsWrite, fsGet_append_of_none _ _ _ (fsGet_filter_self fs n), fsGet_cons, if_pos rfl]

lemma fsGet_write_ne (fs : List (Nat × List BatchEntry)) (n k : Nat)
    (v : List BatchEntry) (h : k ≠ n) : fsGet (fsWrite fs n v) k = fsGet fs k := by
  rw [fsWrite]
  cases hg : fsGet (fs.filter (fun e => e.1 != n)) k with
  | none =>
    rw [fsGet_append_of_none _ _ _ hg, fsGet_cons, if_neg (fun hh => h hh.symm), fsGet_nil,
      ← fsGet_filter_ne fs n k h, hg]
  | some w =>
    rw [fsGet_append_of_some _ _ _ _ hg, ← fsGet_filter_ne fs n k h, hg]

lemma fsGet_none_of_keys_lt (fs : List (Nat × List BatchEntry)) (n : Nat)
    (h : ∀ e ∈ fs, e.1 < n) : fsGet fs n = none := by
  induction fs with
  | nil => rfl
  | cons e fs ih =>
    obtain ⟨m, w⟩ := e
    rw [fsGet_cons]
    have hm : m < n := h (m, w) (List.mem_cons_self _ _)
    rw [if_neg (by omega)]
    exact ih (fun e he => h e (List.mem_cons_of_mem _ he))

lemma fsWrite_fresh (fs : List (Nat × List BatchEntry)) (n : Nat)
    (v : List BatchEntry) (h : ∀ e ∈ fs, e.1 ≠ n) :
    fsWrite fs n v = fs ++ [(n, v)] := by
  rw [fsWrite, List.filter_eq_self.mpr]
  intro e he
  simpa using h e he

/- ───────────────── trace lemmas ───────────────── -/

lemma fetchedIds_append (t1 t2 : List Event) :
    fetchedIds (t1 ++ t2) = fetchedIds t1 ++ fetchedIds t2 := by
  simp [fetchedIds]

lemma savedBatchNums_append (t1 t2 : List Event) :
    savedBatchNums (t1 ++ t2) = savedBatchNums t1 ++ savedBatchNums t2 := by
  simp [savedBatchNums]

lemma savedBatchEntries_append (t1 t2 : List Event) :
    savedBatchEntries (t1 ++ t2) = savedBatchEntries t1 ++ savedBatchEntries t2 := by
  simp [savedBatchEntries]

lemma ckptSaves_append (t1 t2 : List Event) :
    ckptSaves (t1 ++ t2) = ckptSaves t1 + ckptSaves t2 := by
  simp [ckptSaves]

lemma goodTrace_append : ∀ xs ys, goodTrace xs = true → goodTrace ys = true →
    goodTrace (xs ++ ys) = true := by
  intro xs
  induction xs using goodTrace.induct with
  | case1 => intro ys _ hy; simpa using hy
  | case2 id c rest ih =>
    intro ys hx hy
    rw [goodTrace] at hx
    simpa [goodTrace] using ih ys hx hy
  | case3 n es rest ih =>
    intro ys hx hy
    rw [goodTrace] at hx
    simpa [goodTrace] using ih ys hx hy
  | case4 l h1 h2 h3 =>
    intro ys hx hy
    rw [goodTrace] at hx
    · exact absurd hx (by simp)
    · exact h1
    · exact h2
    · exact h3

/- ───────────────── per-post fold lemmas ───────────────── -/

lemma foldl_processPost_trace (f : String → List Record × Status) :
    ∀ (b : List PostInfo) (rs : RunState) (buf : List BatchEntry),
      ∃ tl, (List.foldl (processPost f) (rs, buf) b).1.trace = rs.trace ++ tl ∧
        fetchedIds tl = b.map (fun p => natStr p.post_id) ∧
        savedBatchNums tl = [] ∧
        savedBatchEntries tl = [] ∧
        goodTrace tl = true ∧
        ckptSaves tl = b.length := by
  intro b
  induction b with
  | nil =>
    intro rs buf
    exact ⟨[], by simp, by simp [fetchedIds], by simp [savedBatchNums],
      by simp [savedBatchEntries], rfl, by simp [ckptSaves]⟩
  | cons p rest ih =>
    intro rs buf
    rw [List.foldl_cons]
    obtain ⟨tl, h1, h2, h3, h4, h5, h6⟩ := ih (processPost f (rs, buf) p).1
      (processPost f (rs, buf) p).2
    have hpp : (processPost f (rs, buf) p).1.trace =
        rs.trace ++ [Event.fetchEv (natStr p.post_id),
          Event.saveCkptEv ⟨addToSet rs.completed (natStr p.post_id),
            rs.total + (f (natStr p.post_id)).1.length⟩] := rfl
    refine ⟨[Event.fetchEv (natStr p.post_id),
      Event.saveCkptEv ⟨addToSet rs.completed (natStr p.post_id),
        rs.total + (f (natStr p.post_id)).1.length⟩] ++ tl, ?_, ?_, ?_, ?_, ?_, ?_⟩
    · rw [show (List.foldl (processPost f) (processPost f (rs, buf) p) rest) =
        (List.foldl (processPost f) ((processPost f (rs, buf) p).1,
          (processPost f (rs, buf) p).2) rest) from rfl] at *
      rw [h1, hpp, List.append_assoc]
    · rw [fetchedIds_append, h2]; rfl
    · rw [savedBatchNums_append, h3]; rfl
    · rw [savedBatchEntries_append, h4]; rfl
    · exact goodTrace_append _ _ (by rfl) h5
    · rw [ckptSaves_append, h6]
      show 1 + rest.length = rest.length + 1
      omega

lemma foldl_processPost_state (f : String → List Record × Status) :
    ∀ (b : List PostInfo) (rs : RunState) (buf : List BatchEntry),
      (List.foldl (processPost f) (rs, buf) b).1.completed =
        (b.map (fun p => natStr p.post_id)).foldl addToSet rs.completed ∧
      (List.foldl (processPost f) (rs, buf) b).1.fs = rs.fs ∧
      (List.foldl (processPost f) (rs, buf) b).2 = buf ++ b.map (entryOf f) := by
  intro b
  induction b with
  | nil => intro rs buf; exact ⟨rfl, rfl, by simp⟩
  | cons p rest ih =>
    intro rs buf
    rw [List.foldl_cons]
    obtain ⟨h1, h2, h3⟩ := ih (processPost f (rs, buf) p).1 (processPost f (rs, buf) p).2
    rw [show (List.foldl (processPost f) (processPost f (rs, buf) p) rest) =
      (List.foldl (processPost f) ((processPost f (rs, buf) p).1,
        (processPost f (rs, buf) p).2) rest) from rfl] at *
    refine ⟨?_, ?_, ?_⟩
    · rw [h1]; rfl
    · rw [h2]; rfl
    · rw [h3]; simp [processPost]

/- ───────────────── per-batch and per-run lemmas ───────────────── -/

lemma processBatch_trace (f : String → List Record × Status) (rs : RunState)
    (batch : List PostInfo) (num : Nat) :
    ∃ tl, (processBatch f rs batch num).trace = rs.trace ++ tl ∧
      fetchedIds tl = batch.map (fun p => natStr p.post_id) ∧
      savedBatchNums tl = [num] ∧
      savedBatchEntries tl = batch.map (entryOf f) ∧
      goodTrace tl = true ∧
      ckptSaves tl = batch.length ∧
      (∀ n es, Event.saveBatchEv n es ∈ tl →
        n = num ∧ es = batch.map (entryOf f)) := by
  obtain ⟨tl, h1, h2, h3, h4, h5, h6⟩ := foldl_processPost_trace f batch rs []
  obtain ⟨-, -, hbuf⟩ := foldl_processPost_state f batch rs []
  refine ⟨tl ++ [Event.saveBatchEv num (batch.map (entryOf f))], ?_, ?_, ?_, ?_, ?_, ?_, ?_⟩
  · show (List.foldl (processPost f) (rs, []) batch).1.trace ++
      [Event.saveBatchEv num (List.foldl (processPost f) (rs, []) batch).2] = _
    rw [h1, hbuf, List.nil_append, List.append_assoc]
  · rw [fetchedIds_append, h2]
    simp [fetchedIds]
  · rw [savedBatchNums_append, h3]
    rfl
  · rw [savedBatchEntries_append, h4]
    simp [savedBatchEntries]
  · exact goodTrace_append _ _ h5 (by rfl)
  · rw [ckptSaves_append, h6]
    simp [ckptSaves]
  · intro n es hmem
    rcases List.mem_append.mp hmem with hin | hin
    · -- tl has no batch events: its savedBatchNums is empty
      exfalso
      have : n ∈ savedBatchNums tl := by
        rw [savedBatchNums]
        exact List.mem_filterMap.mpr ⟨Event.saveBatchEv n es, hin, rfl⟩
      rw [h3] at this
      exact absurd this (List.not_mem_nil n)
    · rcases List.mem_singleton.mp hin with heq
      cases heq
      exact ⟨rfl, rfl⟩

lemma processBatch_completed (f : String → List Record × Status) (rs : RunState)
    (batch : List PostInfo) (num : Nat) :
    (processBatch f rs batch num).completed =
      (batch.map (fun p => natStr p.post_id)).foldl addToSet rs.completed := by
  obtain ⟨hc, -, -⟩ := foldl_processPost_state f batch rs []
  exact hc

lemma processBatch_fs (f : String → List Record × Status) (rs : RunState)
    (batch : List PostInfo) (num : Nat) :
    (processBatch f rs batch num).fs = fsWrite rs.fs num (batch.map (entryOf f)) := by
  obtain ⟨-, hfs, hbuf⟩ := foldl_processPost_state f batch rs []
  show fsWrite (List.foldl (processPost f) (rs, []) batch).1.fs num
    (List.foldl (processPost f) (rs, []) batch).2 = _
  rw [hfs, hbuf, List.nil_append]

lemma runBatches_trace (f : String → List Record × Status) :
    ∀ (chs : List (List PostInfo)) (num : Nat) (rs : RunState),
      ∃ tl, (runBatches f chs num rs).trace = rs.trace ++ tl ∧
        fetchedIds tl = (chs.flatten).map (fun p => natStr p.post_id) ∧
        savedBatchNums tl = List.range' num chs.length ∧
        savedBatchEntries tl = (chs.flatten).map (entryOf f) ∧
        goodTrace tl = true ∧
        ckptSaves tl = chs.flatten.length := by
  intro chs
  induction chs with
  | nil =>
    intro num rs
    exact ⟨[], by simp [runBatches], by simp [fetchedIds], by simp [savedBatchNums],
      by simp [savedBatchEntries], rfl, by simp [ckptSaves]⟩
  | cons b rest ih =>
    intro num rs
    obtain ⟨t1, g1, g2, g3, g4, g5, g6, -⟩ := processBatch_trace f rs b num
    obtain ⟨t2, k1, k2, k3, k4, k5, k6⟩ := ih (num + 1) (processBatch f rs b num)
    refine ⟨t1 ++ t2, ?_, ?_, ?_, ?_, ?_, ?_⟩
    · rw [show runBatches f (b :: rest) num rs =
        runBatches f rest (num + 1) (processBatch f rs b num) from rfl,
        k1, g1, List.append_assoc]
    · rw [fetchedIds_append, g2, k2, List.flatten_cons, List.map_append]
    · rw [savedBatchNums_append, g3, k3, List.length_cons, List.range'_succ]
      rfl
    · rw [savedBatchEntries_append, g4, k4, List.flatten_cons, List.map_append]
    · exact goodTrace_append _ _ g5 k5
    · rw [ckptSaves_append, g6, k6, List.flatten_cons, List.length_append]

lemma runBatches_completed (f : String → List Record × Status) :
    ∀ (chs : List (List PostInfo)) (num : Nat) (rs : RunState),
      (runBatches f chs num rs).completed =
        ((chs.flatten).map (fun p => natStr p.post_id)).foldl addToSet rs.completed := by
  intro chs
  induction chs with
  | nil => intro num rs; rfl
  | cons b rest ih =>
    intro num rs
    rw [show runBatches f (b :: rest) num rs =
      runBatches f rest (num + 1) (processBatch f rs b num) from rfl,
      ih, processBatch_completed, List.flatten_cons, List.map_append, List.foldl_append]

lemma runBatches_fs_lt (f : String → List Record × Status) :
    ∀ (chs : List (List PostInfo)) (num : Nat) (rs : RunState) (k : Nat), k < num →
      fsGet (runBatches f chs num rs).fs k = fsGet rs.fs k := by
  intro chs
  induction chs with
  | nil => intro num rs k _; rfl
  | cons b rest ih =>
    intro num rs k hk
    rw [show runBatches f (b :: rest) num rs =
      runBatches f rest (num + 1) (processBatch f rs b num) from rfl,
      ih (num + 1) _ k (by omega), processBatch_fs,
      fsGet_write_ne _ _ _ _ (by omega)]

lemma runBatches_writes (f : String → List Record × Status) :
    ∀ (chs : List (List PostInfo)) (num : Nat) (rs : RunState),
      (∀ n es, Event.saveBatchEv n es ∈ rs.trace → n < num ∧ fsGet rs.fs n = some es) →
      ∀ n es, Event.saveBatchEv n es ∈ (runBatches f chs num rs).trace →
        n < num + chs.length ∧ fsGet (runBatches f chs num rs).fs n = some es := by
  intro chs
  induction chs with
  | nil =>
    intro num rs h n es hmem
    obtain ⟨h1, h2⟩ := h n es hmem
    exact ⟨by omega, h2⟩
  | cons b rest ih =>
    intro num rs h n es hmem
    rw [show runBatches f (b :: rest) num rs =
      runBatches f rest (num + 1) (processBatch f rs b num) from rfl] at hmem ⊢
    have hinv : ∀ n es, Event.saveBatchEv n es ∈ (processBatch f rs b num).trace →
        n < num + 1 ∧ fsGet (processBatch f rs b num).fs n = some es := by
      intro n' es' hm'
      obtain ⟨t1, g1, -, -, -, -, -, g7⟩ := processBatch_trace f rs b num
      rw [g1] at hm'
      rcases List.mem_append.mp hm' with hold | hnew
      · obtain ⟨ho1, ho2⟩ := h n' es' hold
        refine ⟨by omega, ?_⟩
        rw [processBatch_fs, fsGet_write_ne _ _ _ _ (by omega)]
        exact ho2
      · obtain ⟨rfl, rfl⟩ := g7 n' es' hnew
        refine ⟨by omega, ?_⟩
        rw [processBatch_fs, fsGet_write_eq]
    obtain ⟨hn, hfs⟩ := ih (num + 1) (processBatch f rs b num) hinv n es hmem
    exact ⟨by simpa [Nat.add_assoc, Nat.add_comm 1 rest.length] using hn, hfs⟩

lemma runBatches_fs_fresh (f : String → List Record × Status) :
    ∀ (chs : List (List PostInfo)) (num : Nat) (rs : RunState),
      (∀ e ∈ rs.fs, e.1 < num) →
      (runBatches f chs num rs).fs =
        rs.fs ++ List.zip (List.range' num chs.length)
          (chs.map (fun b => b.map (entryOf f))) := by
  intro chs
  induction chs with
  | nil => intro num rs _; simp [runBatches]
  | cons b rest ih =>
    intro num rs h
    rw [show runBatches f (b :: rest) num rs =
      runBatches f rest (num + 1) (processBatch f rs b num) from rfl]
    have hfs : (processBatch f rs b num).fs = rs.fs ++ [(num, b.map (entryOf f))] := by
      rw [processBatch_fs, fsWrite_fresh]
      intro e he
      exact Nat.ne_of_lt (h e he)
    have hkeys : ∀ e ∈ (processBatch f rs b num).fs, e.1 < num + 1 := by
      rw [hfs]
      intro e he
      rcases List.mem_append.mp he with h1 | h2
      · exact Nat.lt_succ_of_lt (h e h1)
      · rcases List.mem_singleton.mp h2 with rfl
        omega
    rw [ih (num + 1) _ hkeys, hfs, List.length_cons, List.range'_succ, List.map_cons,
      List.zip_cons_cons, List.append_assoc, List.singleton_append]

/- ───────────────── chunking and completed-set lemmas ───────────────── -/

lemma chunksGo_flatten (bs : Nat) (hbs : 1 ≤ bs) :
    ∀ (fuel : Nat) (l : List PostInfo), l.length ≤ fuel →
      (chunksGo bs fuel l).flatten = l := by
  intro fuel
  induction fuel with
  | zero =>
    intro l h
    cases l with
    | nil => rfl
    | cons x xs => simp at h
  | succ fuel ih =>
    intro l h
    cases l with
    | nil => rfl
    | cons x xs =>
      show ((x :: xs).take bs :: chunksGo bs fuel ((x :: xs).drop bs)).flatten = x :: xs
      rw [List.flatten_cons, ih ((x :: xs).drop bs) ?_, List.take_append_drop]
      rw [List.length_drop]
      simp only [List.length_cons] at h ⊢
      omega

lemma chunks_flatten (bs : Nat) (l : List PostInfo) (hbs : 1 ≤ bs) :
    (chunks bs l).flatten = l :=
  chunksGo_flatten bs hbs l.length l le_rfl

lemma mem_addToSet (l : List String) (x s : String) :
    s ∈ addToSet l x ↔ s ∈ l ∨ s = x := by
  rw [addToSet]
  by_cases h : x ∈ l
  · rw [if_pos h]
    constructor
    · exact Or.inl
    · rintro (hs | rfl)
      · exact hs
      · exact h
  · rw [if_neg h]
    simp

lemma mem_foldl_addToSet :
    ∀ (l : List String) (acc : List String) (s : String),
      s ∈ l.foldl addToSet acc ↔ s ∈ acc ∨ s ∈ l := by
  intro l
  induction l with
  | nil => intro acc s; simp
  | cons x xs ih =>
    intro acc s
    rw [List.foldl_cons, ih, mem_addToSet]
    constructor
    · rintro ((hs | rfl) | hs)
      · exact Or.inl hs
      · exact Or.inr (List.mem_cons_self _ _)
      · exact Or.inr (List.mem_cons_of_mem _ hs)
    · rintro (hs | hs)
      · exact Or.inl (Or.inl hs)
      · rcases List.mem_cons.mp hs with rfl | hs
        · exact Or.inl (Or.inr rfl)
        · exact Or.inr hs

lemma runMain_eq (f : String → List Record × Status) (allPosts : List PostInfo)
    (ckpt : Checkpoint) (bs : Nat) (fs0 : List (Nat × List BatchEntry)) :
    runMain f allPosts ckpt bs fs0 =
      runBatches f
        (chunks bs (allPosts.filter
          (fun p => !decide (natStr p.post_id ∈ ckpt.completed_post_ids.dedup))))
        (ckpt.completed_post_ids.dedup.length / bs + 1)
        ⟨ckpt.completed_post_ids.dedup, ckpt.total_comments_downloaded, 0, fs0, []⟩ := rfl

lemma entryOf_post_id (f : String → List Record × Status) (p : PostInfo) :
    (entryOf f p).post_id = p.post_id := rfl

/-- C1: a run fetches exactly the identifiers of the input whose string form
is not in the checkpoint's completed set, in input order, and an identifier
already in the completed set is never fetched. -/
theorem resume_fetches_exactly_remaining (f : String → List Record × Status)
    (allPosts : List PostInfo) (ckpt : Checkpoint) (bs : Nat)
    (fs0 : List (Nat × List BatchEntry)) (hbs : 1 ≤ bs) :
    fetchedIds (runMain f allPosts ckpt bs fs0).trace =
      (allPosts.filter
        (fun p => !decide (natStr p.post_id ∈ ckpt.completed_post_ids))).map
        (fun p => natStr p.post_id) ∧
    ∀ id, id ∈ ckpt.completed_post_ids →
      id ∉ fetchedIds (runMain f allPosts ckpt bs fs0).trace := by
  have key : fetchedIds (runMain f allPosts ckpt bs fs0).trace =
      (allPosts.filter
        (fun p => !decide (natStr p.post_id ∈ ckpt.completed_post_ids))).map
        (fun p => natStr p.post_id) := by
    rw [runMain_eq]
    obtain ⟨tl, h1, h2, -, -, -, -⟩ := runBatches_trace f _ _ _
    rw [h1]
    show fetchedIds ([] ++ tl) = _
    rw [List.nil_append, h2, chunks_flatten _ _ hbs]
    congr 1
    apply List.filter_congr
    intro p _
    simp [List.mem_dedup]
  refine ⟨key, ?_⟩
  intro id hid hmem
  rw [key] at hmem
  obtain ⟨p, hp, rfl⟩ := List.mem_map.mp hmem
  have := (List.mem_filter.mp hp).2
  simp only [Bool.not_eq_eq_eq_not, Bool.not_true, decide_eq_false_iff_not] at this
  exact this hid

def fW1 : String → List Record × Status := fun _ => ([2], Status.ok)

def postsW1 : List PostInfo := [⟨1, 1⟩, ⟨2, 1⟩, ⟨3, 1⟩]

def ckptW1 : Checkpoint := ⟨["2"], 5⟩

theorem resume_fetches_exactly_remaining_witness :
    fetchedIds (runMain fW1 postsW1 ckptW1 2 []).trace = ["1", "3"] ∧
    "2" ∉ fetchedIds (runMain fW1 postsW1 ckptW1 2 []).trace := by
  have h := resume_fetches_exactly_remaining fW1 postsW1 ckptW1 2 [] (by decide)
  exact ⟨h.1.trans (by decide), h.2 "2" (by decide)⟩

/-- C2: save_checkpoint writes the whole state to the temporary file and then
renames it over the durable record, so at every crash point the durable
record holds either its previous contents or the complete new checkpoint
(never a torn write); and the coordinator's trace pairs every fetch with
exactly one immediately following checkpoint save — one save per completed
item, before the next item begins. -/
theorem checkpoint_save_atomic_and_per_item (c : Checkpoint) (d : CkptDisk)
    (f : String → List Record × Status) (allPosts : List PostInfo)
    (ckpt : Checkpoint) (bs : Nat) (fs0 : List (Nat × List BatchEntry))
    (hbs : 1 ≤ bs) :
    (∀ k, (applyOps d ((save_checkpoint_ops c).take k)).record = d.record ∨
       (applyOps d ((save_checkpoint_ops c).take k)).record = some (.whole c)) ∧
    goodTrace (runMain f allPosts ckpt bs fs0).trace = true ∧
    ckptSaves (runMain f allPosts ckpt bs fs0).trace =
      (fetchedIds (runMain f allPosts ckpt bs fs0).trace).length := by
  refine ⟨?_, ?_, ?_⟩
  · intro k
    match k with
    | 0 => exact Or.inl rfl
    | 1 => exact Or.inl rfl
    | 2 => exact Or.inl rfl
    | n + 3 =>
      right
      rw [List.take_of_length_le (by simp [save_checkpoint_ops])]
      rfl
  · rw [runMain_eq]
    obtain ⟨tl, h1, -, -, -, h5, -⟩ := runBatches_trace f _ _ _
    rw [h1]
    show goodTrace ([] ++ tl) = true
    rw [List.nil_append]
    exact h5
  · rw [runMain_eq]
    obtain ⟨tl, h1, h2, -, -, -, h6⟩ := runBatches_trace f _ _ _
    rw [h1]
    show ckptSaves ([] ++ tl) = (fetchedIds ([] ++ tl)).length
    rw [List.nil_append, h6, h2, List.length_map]

def cW : Checkpoint := ⟨["1"], 4⟩

def dW : CkptDisk := ⟨some (.whole ⟨[], 0⟩), none⟩

theorem checkpoint_save_atomic_and_per_item_witness :
    ((applyOps dW ((save_checkpoint_ops cW).take 2)).record = dW.record ∨
      (applyOps dW ((save_checkpoint_ops cW).take 2)).record = some (.whole cW)) ∧
    goodTrace (runMain fW1 postsW1 ckptW1 2 []).trace = true := by
  have h := checkpoint_save_atomic_and_per_item cW dW fW1 postsW1 ckptW1 2 [] (by decide)
  exact ⟨h.1 2, h.2.1⟩

def entC : BatchEntry := ⟨3, 1, 1, Status.ok, [9]⟩

def entD : BatchEntry := ⟨4, 0, 0, Status.ok, []⟩

def fsC7 : List (Nat × List BatchEntry) := [(2, [entC])]

/-- C7 counterexample: save_batch opens its target with mode w and has no
guard and no explicit-instruction flag, so writing a group under a sequence
number whose file already exists replaces the prior contents: with a file
for number 2 on disk, a new write under 2 changes that file. -/
theorem save_batch_overwrites_cex :
    fsGet fsC7 2 = some [entC] ∧
    fsGet (fsWrite fsC7 2 [entD]) 2 = some [entD] ∧
    ¬ fsGet (fsWrite fsC7 2 [entD]) 2 = fsGet fsC7 2 := by decide

/-- C7 amended: save_batch itself overwrites unconditionally, but within one
run the coordinator uses strictly increasing fresh sequence numbers starting
at floor(priorCompletedCount / batchSize) + 1, so every group written during
the run is still intact at the end of the run, and every group file with a
number below the starting number is left unchanged; only a prior segment's
file at a number at or above the starting number can be overwritten. -/
theorem save_batch_no_overwrite_within_run (f : String → List Record × Status)
    (allPosts : List PostInfo) (ckpt : Checkpoint) (bs : Nat)
    (fs0 : List (Nat × List BatchEntry)) (hbs : 1 ≤ bs) :
    (∀ n es, Event.saveBatchEv n es ∈ (runMain f allPosts ckpt bs fs0).trace →
       fsGet (runMain f allPosts ckpt bs fs0).fs n = some es) ∧
    (∀ k, k < ckpt.completed_post_ids.dedup.length / bs + 1 →
       fsGet (runMain f allPosts ckpt bs fs0).fs k = fsGet fs0 k) := by
  rw [runMain_eq]
  constructor
  · intro n es hmem
    have hbase : ∀ n es, Event.saveBatchEv n es ∈
        (⟨ckpt.completed_post_ids.dedup, ckpt.total_comments_downloaded, 0, fs0,
          []⟩ : RunState).trace → n < ckpt.completed_post_ids.dedup.length / bs + 1 ∧
        fsGet fs0 n = some es := by
      intro n es h
      exact absurd h (List.not_mem_nil _)
    exact (runBatches_writes f _ _ _ hbase n es hmem).2
  · intro k hk
    exact runBatches_fs_lt f _ _ _ k hk

theorem save_batch_no_overwrite_within_run_witness :
    fsGet (runMain fW1 postsW1 ckptW1 2 [(0, [entC])]).fs 0 = some [entC] := by
  have h := save_batch_no_overwrite_within_run fW1 postsW1 ckptW1 2 [(0, [entC])]
    (by decide)
  exact (h.2 0 (by decide)).trans (by decide)

/-- C10: the remaining list is filtered against the checkpoint only once, at
startup, and the per-item loop never re-checks the completed set, so an
identifier absent from the checkpoint that occurs k times in the input
document is fetched k times by a single run and k group entries are written
for it (twice, for a duplicated identifier). -/
theorem duplicate_input_double_fetch (f : String → List Record × Status)
    (allPosts : List PostInfo) (ckpt : Checkpoint) (bs : Nat)
    (fs0 : List (Nat × List BatchEntry)) (pid : String) (hbs : 1 ≤ bs)
    (hnot : pid ∉ ckpt.completed_post_ids) :
    (fetchedIds (runMain f allPosts ckpt bs fs0).trace).countP (fun s => s == pid) =
      allPosts.countP (fun p => natStr p.post_id == pid) ∧
    (savedBatchEntries (runMain f allPosts ckpt bs fs0).trace).countP
        (fun e => natStr e.post_id == pid) =
      allPosts.countP (fun p => natStr p.post_id == pid) := by
  have hfun : ∀ p : PostInfo, ((natStr p.post_id == pid) &&
      !decide (natStr p.post_id ∈ ckpt.completed_post_ids.dedup)) =
      (natStr p.post_id == pid) := by
    intro p
    by_cases hp : natStr p.post_id = pid
    · rw [hp]
      simp [List.mem_dedup, hnot]
    · simp [hp]
  rw [runMain_eq]
  obtain ⟨tl, h1, h2, -, h4, -, -⟩ := runBatches_trace f _ _ _
  rw [h1]
  constructor
  · show (fetchedIds ([] ++ tl)).countP (fun s => s == pid) = _
    rw [List.nil_append, h2, chunks_flatten _ _ hbs, List.countP_map,
      List.countP_filter]
    apply List.countP_congr
    intro p _
    rw [show ((fun s => s == pid) ∘ fun p : PostInfo => natStr p.post_id) p =
      (natStr p.post_id == pid) from rfl, hfun p]
  · show (savedBatchEntries ([] ++ tl)).countP (fun e => natStr e.post_id == pid) = _
    rw [List.nil_append, h4, chunks_flatten _ _ hbs, List.countP_map,
      List.countP_filter]
    apply List.countP_congr
    intro p _
    rw [show ((fun e => natStr e.post_id == pid) ∘ entryOf f) p =
      (natStr p.post_id == pid) from rfl, hfun p]

def postsW10 : List PostInfo := [⟨7, 1⟩, ⟨8, 0⟩, ⟨7, 1⟩]

theorem duplicate_input_double_fetch_witness :
    (fetchedIds (runMain fW1 postsW10 ⟨[], 0⟩ 2 []).trace).countP
        (fun s => s == "7") = 2 ∧
    (savedBatchEntries (runMain fW1 postsW10 ⟨[], 0⟩ 2 []).trace).countP
        (fun e => natStr e.post_id == "7") = 2 := by
  have h := duplicate_input_double_fetch fW1 postsW10 ⟨[], 0⟩ 2 [] "7" (by decide)
    (List.not_mem_nil _)
  exact ⟨h.1.trans (by decide), h.2.trans (by decide)⟩

lemma runMain_fresh_eq (f : String → List Record × Status) (allPosts : List PostInfo)
    (bs : Nat) :
    runMain f allPosts ⟨[], 0⟩ bs [] =
      runBatches f (chunks bs allPosts) 1 ⟨[], 0, 0, [], []⟩ := by
  have hfil : allPosts.filter
      (fun p => !decide (natStr p.post_id ∈ ([] : List String))) = allPosts := by
    apply List.filter_eq_self.mpr
    intro a _
    simp
  rw [runMain_eq,
    show (⟨[], 0⟩ : Checkpoint).completed_post_ids.dedup = ([] : List String) from rfl,
    show (⟨[], 0⟩ : Checkpoint).total_comments_downloaded = 0 from rfl,
    hfil, List.length_nil, Nat.zero_div, Nat.zero_add]

/-- C8 amended: for every completed run that starts from an empty checkpoint
and an empty batch directory, the identifiers in the final checkpoint's
completed set are exactly the identifiers appearing across the persisted
group files. -/
theorem checkpoint_matches_groups_fresh (f : String → List Record × Status)
    (allPosts : List PostInfo) (bs : Nat) (hbs : 1 ≤ bs) :
    ∀ s, s ∈ (runMain f allPosts ⟨[], 0⟩ bs []).completed ↔
      ∃ e ∈ entriesOfFs (runMain f allPosts ⟨[], 0⟩ bs []).fs,
        natStr e.post_id = s := by
  intro s
  rw [runMain_fresh_eq, runBatches_completed,
    runBatches_fs_fresh f _ _ _ (by intro e he; exact absurd he (List.not_mem_nil _)),
    mem_foldl_addToSet,
    show (⟨[], 0, 0, [], []⟩ : RunState).completed = ([] : List String) from rfl,
    show (⟨[], 0, 0, [], []⟩ : RunState).fs = ([] : List (Nat × List BatchEntry)) from rfl,
    List.nil_append, entriesOfFs,
    List.map_snd_zip _ _ (by rw [List.length_range', List.length_map]),
    ← List.map_flatten, chunks_flatten _ _ hbs]
  constructor
  · rintro (hs | hs)
    · exact absurd hs (List.not_mem_nil _)
    · obtain ⟨p, hp, rfl⟩ := List.mem_map.mp hs
      exact ⟨entryOf f p, List.mem_map_of_mem _ hp, rfl⟩
  · rintro ⟨e, he, rfl⟩
    obtain ⟨p, hp, rfl⟩ := List.mem_map.mp he
    exact Or.inr (List.mem_map_of_mem _ hp)

def fC8 : String → List Record × Status := fun _ => ([1], Status.ok)

def postsC8a : List PostInfo := [⟨1, 1⟩, ⟨2, 1⟩, ⟨3, 1⟩]

def postsC8b : List PostInfo := [⟨1, 1⟩, ⟨2, 1⟩, ⟨3, 1⟩, ⟨4, 1⟩, ⟨5, 1⟩]

def runC8a : RunState := runMain fC8 postsC8a ⟨[], 0⟩ 2 []

def runC8b : RunState :=
  runMain fC8 postsC8b ⟨runC8a.completed, runC8a.total⟩ 2 runC8a.fs

/-- C8 counterexample: a completed first run over three posts with group
size 2 writes groups 1 and 2 and checkpoints identifiers 1, 2, 3; a
completed resumed run over five posts starts at sequence number
3 div 2 + 1 = 2 and overwrites group 2, so afterwards identifier 3 is in the
checkpoint's completed set but appears in no persisted group file. -/
theorem checkpoint_groups_mismatch_cex :
    "3" ∈ runC8b.completed ∧
    ¬ ∃ e ∈ entriesOfFs runC8b.fs, natStr e.post_id = "3" := by decide

theorem checkpoint_matches_groups_fresh_witness :
    "1" ∈ (runMain fC8 postsC8a ⟨[], 0⟩ 2 []).completed ↔
      ∃ e ∈ entriesOfFs (runMain fC8 postsC8a ⟨[], 0⟩ 2 []).fs,
        natStr e.post_id = "1" :=
  checkpoint_matches_groups_fresh fC8 postsC8a 2 (by decide) "1"

/- ───────────────── decimal digits and filename order ───────────────── -/

lemma revDigitsGo_zero : ∀ f, revDigitsGo f 0 = [] := by
  intro f
  cases f with
  | zero => rfl
  | succ g => rfl

lemma revDigitsGo_congr : ∀ n f1 f2, n ≤ f1 → n ≤ f2 →
    revDigitsGo f1 n = revDigitsGo f2 n := by
  intro n
  induction n using Nat.strong_induction_on with
  | _ n ih =>
    intro f1 f2 h1 h2
    cases n with
    | zero => rw [revDigitsGo_zero, revDigitsGo_zero]
    | succ m =>
      cases f1 with
      | zero => omega
      | succ g1 =>
        cases f2 with
        | zero => omega
        | succ g2 =>
          show (m + 1) % 10 :: revDigitsGo g1 ((m + 1) / 10) =
            (m + 1) % 10 :: revDigitsGo g2 ((m + 1) / 10)
          have hlt : (m + 1) / 10 < m + 1 := Nat.div_lt_self (by omega) (by omega)
          rw [ih ((m + 1) / 10) hlt g1 g2 (by omega) (by omega)]

/-- Little-endian value of a digit list. -/
def lval : List Nat → Nat
  | [] => 0
  | d :: ds => d + 10 * lval ds

/-- Big-endian value of a digit list. -/
def bval : List Nat → Nat
  | [] => 0
  | d :: ds => d * 10 ^ ds.length + bval ds

lemma lval_revDigitsGo : ∀ n f, n ≤ f → lval (revDigitsGo f n) = n := by
  intro n
  induction n using Nat.strong_induction_on with
  | _ n ih =>
    intro f h
    cases n with
    | zero => rw [revDigitsGo_zero]; rfl
    | succ m =>
      cases f with
      | zero => omega
      | succ g =>
        show lval ((m + 1) % 10 :: revDigitsGo g ((m + 1) / 10)) = m + 1
        have hlt : (m + 1) / 10 < m + 1 := Nat.div_lt_self (by omega) (by omega)
        show (m + 1) % 10 + 10 * lval (revDigitsGo g ((m + 1) / 10)) = m + 1
        rw [ih ((m + 1) / 10) hlt g (by omega)]
        exact Nat.mod_add_div (m + 1) 10

lemma revDigitsGo_lt10 : ∀ n f d, d ∈ revDigitsGo f n → d < 10 := by
  intro n
  induction n using Nat.strong_induction_on with
  | _ n ih =>
    intro f d hd
    cases n with
    | zero => rw [revDigitsGo_zero] at hd; exact absurd hd (List.not_mem_nil _)
    | succ m =>
      cases f with
      | zero => exact absurd hd (List.not_mem_nil _)
      | succ g =>
        have hlt : (m + 1) / 10 < m + 1 := Nat.div_lt_self (by omega) (by omega)
        rcases List.mem_cons.mp hd with rfl | hd
        · exact Nat.mod_lt _ (by omega)
        · exact ih ((m + 1) / 10) hlt g d hd

lemma revDigitsGo_length : ∀ n k f, n ≤ f → n < 10 ^ k →
    (revDigitsGo f n).length ≤ k := by
  intro n
  induction n using Nat.strong_induction_on with
  | _ n ih =>
    intro k f hf hk
    cases n with
    | zero => rw [revDigitsGo_zero]; exact Nat.zero_le k
    | succ m =>
      cases f with
      | zero => omega
      | succ g =>
        cases k with
        | zero => rw [pow_zero] at hk; omega
        | succ k =>
          show ((m + 1) % 10 :: revDigitsGo g ((m + 1) / 10)).length ≤ k + 1
          rw [List.length_cons]
          have hlt : (m + 1) / 10 < m + 1 := Nat.div_lt_self (by omega) (by omega)
          have hdiv : (m + 1) / 10 < 10 ^ k := by
            rw [Nat.div_lt_iff_lt_mul (by omega : 0 < 10)]
            rw [pow_succ] at hk
            exact hk
          have := ih ((m + 1) / 10) hlt k g (by omega) hdiv
          omega

lemma bval_append (xs ys : List Nat) :
    bval (xs ++ ys) = bval xs * 10 ^ ys.length + bval ys := by
  induction xs with
  | nil => rw [List.nil_append]; show bval ys = 0 * 10 ^ ys.length + bval ys; ring
  | cons d xs ih =>
    rw [List.cons_append]
    show d * 10 ^ (xs ++ ys).length + bval (xs ++ ys) =
      (d * 10 ^ xs.length + bval xs) * 10 ^ ys.length + bval ys
    rw [ih, List.length_append, pow_add]
    ring

lemma bval_reverse : ∀ l : List Nat, bval l.reverse = lval l := by
  intro l
  induction l with
  | nil => rfl
  | cons d ds ih =>
    rw [List.reverse_cons, bval_append, ih]
    show lval ds * 10 ^ 1 + (d * 10 ^ (0:Nat) + 0) = d + 10 * lval ds
    ring

lemma bval_lt_of_digits (ds : List Nat) (h : ∀ d ∈ ds, d < 10) :
    bval ds < 10 ^ ds.length := by
  induction ds with
  | nil => decide
  | cons d ds ih =>
    show d * 10 ^ ds.length + bval ds < 10 ^ (ds.length + 1)
    have hd : d < 10 := h d (List.mem_cons_self _ _)
    have hds : bval ds < 10 ^ ds.length := ih (fun e he => h e (List.mem_cons_of_mem _ he))
    calc d * 10 ^ ds.length + bval ds
        < d * 10 ^ ds.length + 10 ^ ds.length := Nat.add_lt_add_left hds _
      _ = (d + 1) * 10 ^ ds.length := by ring
      _ ≤ 10 * 10 ^ ds.length := Nat.mul_le_mul_right _ (by omega)
      _ = 10 ^ (ds.length + 1) := by rw [pow_succ]; ring

lemma natDigits0_lt10 (n : Nat) : ∀ d ∈ natDigits0 n, d < 10 := by
  intro d hd
  rw [natDigits0] at hd
  by_cases h : n = 0
  · rw [if_pos h] at hd
    rcases List.mem_singleton.mp hd with rfl
    omega
  · rw [if_neg h] at hd
    exact revDigitsGo_lt10 n n d (List.mem_reverse.mp hd)

lemma natDigits0_length_le5 (n : Nat) (h : n < 100000) :
    (natDigits0 n).length ≤ 5 := by
  rw [natDigits0]
  by_cases h0 : n = 0
  · rw [if_pos h0]; simp
  · rw [if_neg h0, List.length_reverse]
    exact revDigitsGo_length n 5 n le_rfl (by norm_num at h ⊢; omega)

lemma bval_natDigits0 (n : Nat) : bval (natDigits0 n) = n := by
  rw [natDigits0]
  by_cases h0 : n = 0
  · rw [if_pos h0, h0]; rfl
  · rw [if_neg h0, bval_reverse]
    exact lval_revDigitsGo n n le_rfl

/-- The digit list the 05d format prints: the digits of n left-padded with
zeros to width five. -/
def padDigits (n : Nat) : List Nat :=
  List.replicate (5 - (natDigits0 n).length) 0 ++ natDigits0 n

lemma bval_replicate_zero (k : Nat) : bval (List.replicate k 0) = 0 := by
  induction k with
  | zero => rfl
  | succ k ih =>
    rw [List.replicate_succ]
    show 0 * 10 ^ (List.replicate k 0).length + bval (List.replicate k 0) = 0
    rw [ih]; ring

lemma bval_padDigits (n : Nat) : bval (padDigits n) = n := by
  rw [padDigits, bval_append, bval_replicate_zero, bval_natDigits0]
  ring

lemma padDigits_length (n : Nat) (h : n < 100000) : (padDigits n).length = 5 := by
  rw [padDigits, List.length_append, List.length_replicate]
  have := natDigits0_length_le5 n h
  omega

lemma padDigits_lt10 (n : Nat) : ∀ d ∈ padDigits n, d < 10 := by
  intro d hd
  rcases List.mem_append.mp hd with h | h
  · rw [List.eq_of_mem_replicate h]; omega
  · exact natDigits0_lt10 n d h

lemma pad5_data (n : Nat) : (pad5 n).data = (padDigits n).map digitChar := by
  show List.replicate (5 - (natStr n).length) '0' ++ (natStr n).data = _
  rw [padDigits, List.map_append, List.map_replicate,
    show digitChar 0 = '0' from rfl,
    show (natStr n).data = (natDigits0 n).map digitChar from rfl,
    show (natStr n).length = ((natDigits0 n).map digitChar).length from rfl,
    List.length_map]

lemma lexLt_append_same : ∀ (xs as bs : List Char),
    lexLt (xs ++ as) (xs ++ bs) = lexLt as bs := by
  intro xs as bs
  induction xs with
  | nil => rfl
  | cons c xs ih =>
    show (if c.toNat < c.toNat then true
      else if c.toNat < c.toNat then false else lexLt (xs ++ as) (xs ++ bs)) =
      lexLt as bs
    rw [if_neg (Nat.lt_irrefl _), if_neg (Nat.lt_irrefl _), ih]

lemma digitChar_toNat_lt : ∀ d, d < 10 → ∀ e, e < 10 →
    (d < e ↔ (digitChar d).toNat < (digitChar e).toNat) := by decide

lemma lexLt_of_bval_lt : ∀ (ds es : List Nat), ds.length = es.length →
    (∀ d ∈ ds, d < 10) → (∀ e ∈ es, e < 10) → bval ds < bval es →
    lexLt (ds.map digitChar) (es.map digitChar) = true := by
  intro ds
  induction ds with
  | nil =>
    intro es hlen _ _ hbv
    cases es with
    | nil => exact absurd hbv (Nat.lt_irrefl _)
    | cons e es => simp at hlen
  | cons d ds ih =>
    intro es hlen hd he hbv
    cases es with
    | nil => simp at hlen
    | cons e es =>
      have hlen' : ds.length = es.length := by simpa using hlen
      have hd10 : d < 10 := hd d (List.mem_cons_self _ _)
      have he10 : e < 10 := he e (List.mem_cons_self _ _)
      rw [List.map_cons, List.map_cons]
      show (if (digitChar d).toNat < (digitChar e).toNat then true
        else if (digitChar e).toNat < (digitChar d).toNat then false
        else lexLt (ds.map digitChar) (es.map digitChar)) = true
      rcases Nat.lt_trichotomy d e with hde | hde | hde
      · rw [if_pos ((digitChar_toNat_lt d hd10 e he10).mp hde)]
      · subst hde
        rw [if_neg (Nat.lt_irrefl _), if_neg (Nat.lt_irrefl _)]
        apply ih es hlen' (fun x hx => hd x (List.mem_cons_of_mem _ hx))
          (fun x hx => he x (List.mem_cons_of_mem _ hx))
        have hb : bval (d :: ds) = d * 10 ^ es.length + bval ds := by
          show d * 10 ^ ds.length + bval ds = _
          rw [hlen']
        have hb' : bval (d :: es) = d * 10 ^ es.length + bval es := rfl
        rw [hb, hb'] at hbv
        omega
      · exfalso
        have hes : bval es < 10 ^ es.length :=
          bval_lt_of_digits es (fun x hx => he x (List.mem_cons_of_mem _ hx))
        have hchain : bval (e :: es) < bval (e :: es) := by
          calc bval (e :: es) = e * 10 ^ es.length + bval es := rfl
            _ < e * 10 ^ es.length + 10 ^ es.length := Nat.add_lt_add_left hes _
            _ = (e + 1) * 10 ^ es.length := by ring
            _ ≤ d * 10 ^ es.length := Nat.mul_le_mul_right _ (by omega)
            _ = d * 10 ^ ds.length := by rw [hlen']
            _ ≤ d * 10 ^ ds.length + bval ds := Nat.le_add_right _ _
            _ = bval (d :: ds) := rfl
            _ < bval (e :: es) := hbv
        exact absurd hchain (Nat.lt_irrefl _)

lemma lexLt_append_of_lexLt : ∀ (ds es cs cs' : List Char), ds.length = es.length →
    lexLt ds es = true → lexLt (ds ++ cs) (es ++ cs') = true := by
  intro ds
  induction ds with
  | nil =>
    intro es cs cs' hlen hlt
    cases es with
    | nil => exact absurd hlt (by rw [lexLt]; simp)
    | cons e es => simp at hlen
  | cons d ds ih =>
    intro es cs cs' hlen hlt
    cases es with
    | nil => simp at hlen
    | cons e es =>
      have hlen' : ds.length = es.length := by simpa using hlen
      rw [List.cons_append, List.cons_append]
      show (if d.toNat < e.toNat then true
        else if e.toNat < d.toNat then false
        else lexLt (ds ++ cs) (es ++ cs')) = true
      have hl : lexLt (d :: ds) (e :: es) = true := hlt
      rw [show lexLt (d :: ds) (e :: es) =
        (if d.toNat < e.toNat then true
          else if e.toNat < d.toNat then false else lexLt ds es) from rfl] at hl
      by_cases h1 : d.toNat < e.toNat
      · rw [if_pos h1]
      · rw [if_neg h1] at hl ⊢
        by_cases h2 : e.toNat < d.toNat
        · rw [if_pos h2] at hl; exact absurd hl (by simp)
        · rw [if_neg h2] at hl ⊢
          exact ih es cs cs' hlen' hl

lemma strLt_batchFileName {m n : Nat} (h : m < n) (hn : n < 100000) :
    strLt (batchFileName m) (batchFileName n) = true := by
  have hm : m < 100000 := by omega
  have hdata : ∀ k, (batchFileName k).data =
      "batch_".data ++ ((padDigits k).map digitChar ++ ".json".data) := by
    intro k
    show ("batch_".data ++ (pad5 k).data) ++ ".json".data = _
    rw [pad5_data, List.append_assoc]
  rw [strLt, hdata m, hdata n, lexLt_append_same]
  apply lexLt_append_of_lexLt
  · rw [List.length_map, List.length_map, padDigits_length m hm, padDigits_length n hn]
  · apply lexLt_of_bval_lt
    · rw [padDigits_length m hm, padDigits_length n hn]
    · exact padDigits_lt10 m
    · exact padDigits_lt10 n
    · rw [bval_padDigits, bval_padDigits]
      exact h

/-- C6 counterexample: the 05d format pads only to a minimum width of five,
so batch 100000 gets a six-digit number and its filename sorts strictly
before batch 99999's filename even though 99999 < 100000 — filename sort
order does not equal numeric order in general. -/
theorem batch_filename_order_cex :
    (99999 : Nat) < 100000 ∧
    strLt (batchFileName 100000) (batchFileName 99999) = true := by decide

/-- C6 amended: within a run the batch numbers written are strictly
increasing and gap-free, starting at
floor(priorCompletedCount / batchSize) + 1 (hence at 1 for a fresh run), and
the zero-padded filenames sort in numeric order as long as the sequence
numbers stay below 100000 (five digits); at 100000 the minimum-width padding
no longer makes filename order match numeric order. -/
theorem batch_numbering_amended (f : String → List Record × Status)
    (allPosts : List PostInfo) (ckpt : Checkpoint) (bs : Nat)
    (fs0 : List (Nat × List BatchEntry)) (hbs : 1 ≤ bs) :
    (∃ k, savedBatchNums (runMain f allPosts ckpt bs fs0).trace =
       List.range' (ckpt.completed_post_ids.dedup.length / bs + 1) k) ∧
    (∀ m n : Nat, m < n → n < 100000 →
       strLt (batchFileName m) (batchFileName n) = true) := by
  constructor
  · rw [runMain_eq]
    obtain ⟨tl, h1, -, h3, -, -, -⟩ := runBatches_trace f _ _ _
    refine ⟨(chunks bs (allPosts.filter
      (fun p => !decide (natStr p.post_id ∈ ckpt.completed_post_ids.dedup)))).length, ?_⟩
    rw [h1]
    show savedBatchNums ([] ++ tl) = _
    rw [List.nil_append, h3]
  · intro m n hmn hn
    exact strLt_batchFileName hmn hn

def ckptW6 : Checkpoint := ⟨["1", "2"], 2⟩

def postsW6 : List PostInfo := [⟨1, 1⟩, ⟨2, 1⟩, ⟨3, 1⟩, ⟨4, 1⟩, ⟨5, 1⟩]

theorem batch_numbering_amended_witness :
    (∃ k, savedBatchNums (runMain fW1 postsW6 ckptW6 2 []).trace =
       List.range' 2 k) ∧
    strLt (batchFileName 7) (batchFileName 12) = true := by
  have h := batch_numbering_amended fW1 postsW6 ckptW6 2 [] (by decide)
  refine ⟨?_, h.2 7 12 (by decide) (by decide)⟩
  obtain ⟨k, hk⟩ := h.1
  refine ⟨k, ?_⟩
  rw [hk]
  congr 1

end CommentsDownload
